import Mathlib

/-!
Verification of the course-catalog core of `ProjectTwo.cpp` (CS 300 advising
assistance program): the `CourseBST` binary search tree, the `toUpperTrim`
normalizer, the `loadCourses` CSV loader and the `printCourseInfo` renderer.

Strings are modelled by Lean `String` (a list of characters); the C++
byte-wise lexicographic `std::string` comparison is modelled by the
lexicographic order on `String`, which coincides with it on ASCII data.
-/

/-- Decidability of `<` on `String` through the character list, so that
concrete catalogs reduce inside the kernel (the default instance is built
on `String.ltb`, which does not). The relation is unchanged. -/
instance (priority := 2000) strDecLt (a b : String) : Decidable (a < b) :=
  decidable_of_iff (a.toList < b.toList) String.lt_iff_toList_lt.symm

/-- Decidability of `≤` on `String` through `<`, kernel-reducible. -/
instance (priority := 2000) strDecLe (a b : String) : Decidable (a ≤ b) :=
  decidable_of_iff (¬ b < a) not_lt

/-- The `Course` struct of `ProjectTwo.cpp`: a course number (the id),
a course name (the title) and an ordered list of prerequisite ids. -/
structure Course where
  courseNumber : String
  courseName : String
  prerequisites : List String
deriving DecidableEq, Repr

/-- The node/pointer structure of `CourseBST`: an empty tree (null pointer)
or a node carrying one `Course` and two subtrees. -/
inductive CourseTree where
  | nil : CourseTree
  | node : CourseTree → Course → CourseTree → CourseTree
deriving DecidableEq, Repr

/-- `CourseBST::addNode`: if the position is empty place the course there,
otherwise recurse left when the new course number is strictly smaller than
the node's, and right otherwise (so duplicates go right). -/
def addNode : CourseTree → Course → CourseTree
  | CourseTree.nil, c => CourseTree.node CourseTree.nil c CourseTree.nil
  | CourseTree.node l n r, c =>
    if c.courseNumber < n.courseNumber then
      CourseTree.node (addNode l c) n r
    else
      CourseTree.node l n (addNode r c)

/-- `CourseBST::inOrder` / `printAll`: the in-order traversal, as the list of
courses in the order they are printed. -/
def inOrderList : CourseTree → List Course
  | CourseTree.nil => []
  | CourseTree.node l n r => inOrderList l ++ n :: inOrderList r

/-- `CourseBST::searchNode` / `search`: return the course at the first node
whose course number equals the query, descending left when the query is
smaller and right when it is larger. -/
def searchNode : CourseTree → String → Option Course
  | CourseTree.nil, _ => none
  | CourseTree.node l n r, k =>
    if n.courseNumber = k then some n
    else if k < n.courseNumber then searchNode l k
    else searchNode r k

/-- A sequence of `CourseBST::insert` calls starting from the empty tree. -/
def insertAll (cs : List Course) : CourseTree :=
  cs.foldl addNode CourseTree.nil

/-- The whitespace set `" \t\r\n"` used by `toUpperTrim`'s
`find_first_not_of` / `find_last_not_of` calls. -/
def isTrimWs (c : Char) : Bool :=
  c = ' ' || c = '\t' || c = '\r' || c = '\n'

/-- C `toupper` in the default locale, as applied byte-wise by
`toUpperTrim`: bytes 0x61–0x7A map to 0x41–0x5A, all others are unchanged. -/
def cppToupper (c : Char) : Char :=
  if 0x61 ≤ c.toNat ∧ c.toNat ≤ 0x7A then Char.ofNat (c.toNat - 0x20) else c

/-- `std::string::find_first_not_of(" \t\r\n")`: the index of the first
character outside the whitespace set, or `none` (`npos`). -/
def findFirstNotOf : List Char → Option Nat
  | [] => none
  | c :: rest =>
    if isTrimWs c then (findFirstNotOf rest).map (· + 1) else some 0

/-- `std::string::find_last_not_of(" \t\r\n")`: the index of the last
character outside the whitespace set, or `none` (`npos`). -/
def findLastNotOf (s : List Char) : Option Nat :=
  (findFirstNotOf s.reverse).map (fun j => s.length - 1 - j)

/-- The trimming phase of `toUpperTrim`: when both indices exist the
substring `str.substr(start, end - start + 1)`, otherwise the empty
string. -/
def trimWsList (s : List Char) : List Char :=
  match findFirstNotOf s, findLastNotOf s with
  | some start, some stop => (s.drop start).take (stop - start + 1)
  | _, _ => []

/-- `toUpperTrim` on the underlying character list: trim, then uppercase
each remaining character. -/
def toUpperTrimList (s : List Char) : List Char :=
  (trimWsList s).map cppToupper

/-- The `toUpperTrim` utility of `ProjectTwo.cpp`. -/
def toUpperTrim (s : String) : String :=
  String.mk (toUpperTrimList s.data)

/-- The comma-splitting loop of `loadCourses`
(`while (getline(ss, token, ','))`), on the character list: a token is read
up to each delimiter; once the stream is exhausted `getline` fails, so a
trailing delimiter does not produce a final empty token. -/
def splitCSVList : List Char → List (List Char)
  | [] => []
  | c :: rest =>
    if c = ',' then [] :: splitCSVList rest
    else
      match splitCSVList rest with
      | [] => [[c]]
      | t :: ts => (c :: t) :: ts

/-- The comma-splitting loop of `loadCourses`, on strings. -/
def splitCSV (s : String) : List String :=
  (splitCSVList s.data).map String.mk

/-- The line-processing loop of `loadCourses`, over the list of lines read
by `getline(file, line)`: blank lines are skipped, lines splitting into
fewer than two tokens produce a warning message and are skipped, and every
other line is turned into a `Course` (normalized number, verbatim name,
normalized remaining tokens as prerequisites) and inserted into the tree.
Returns the final tree and the warning messages in order. -/
def loadCoursesLines : List String → CourseTree → CourseTree × List String
  | [], bst => (bst, [])
  | line :: rest, bst =>
    if line = "" then loadCoursesLines rest bst
    else
      let tokens := splitCSV line
      if tokens.length < 2 then
        let r := loadCoursesLines rest bst
        (r.1, ("WARNING: Invalid course line (skipped): " ++ line) :: r.2)
      else
        let course : Course :=
          { courseNumber := toUpperTrim tokens[0]!
            courseName := tokens[1]!
            prerequisites := (tokens.drop 2).map toUpperTrim }
        loadCoursesLines rest (addNode bst course)

/-- `loadCourses`: the input source is `none` when the file cannot be
opened, in which case an error message is produced and the tree is
untouched; otherwise the lines are processed by the loading loop. -/
def loadCourses (filename : String) (source : Option (List String)) (bst : CourseTree) : CourseTree × List String :=
  match source with
  | none => (bst, [("ERROR: Could not open file: " ++ filename)])
  | some lines => loadCoursesLines lines bst

/-- One entry of `printCourseInfo`'s prerequisite list: the prerequisite id
is looked up in the tree; when found the entry is "id: name", otherwise
"id: None Required". -/
def prereqEntry (bst : CourseTree) (p : String) : String :=
  match searchNode bst p with
  | some pc => pc.courseNumber ++ ": " ++ pc.courseName
  | none => p ++ ": None Required"

/-- The prerequisite-printing loop of `printCourseInfo`, with its
`firstPrinted` flag: every entry after the first is preceded by ", ". -/
def prereqLoop (bst : CourseTree) : List String → Bool → String
  | [], _ => ""
  | p :: ps, firstPrinted =>
    (if firstPrinted then (", ") else ("")) ++ prereqEntry bst p ++ prereqLoop bst ps true

/-- The output `printCourseInfo` writes after reading the user's query:
the query is normalized and looked up; if absent the not-found notice, if
present the "number, name" line followed by the prerequisite line. -/
def printCourseInfoOutput (bst : CourseTree) (userInput : String) : String :=
  match searchNode bst (toUpperTrim userInput) with
  | none => "Course not found.\n"
  | some c =>
    c.courseNumber ++ ", " ++ c.courseName ++ "\n" ++
      (if c.prerequisites.isEmpty then ("Prerequisites: None\n")
       else ("Prerequisites: ") ++ prereqLoop bst c.prerequisites false ++ "\n")

/-- Spec-side trimming ("removing all leading and trailing characters in
the set {space, tab, carriage return, newline}"): drop the whitespace
prefix, then drop the whitespace suffix. -/
def trimSpecList (s : List Char) : List Char :=
  ((s.dropWhile isTrimWs).reverse.dropWhile isTrimWs).reverse

/-- Spec-side normalization: trim both ends, then map each byte in
0x61–0x7A to the corresponding byte in 0x41–0x5A (`cppToupper` is exactly
that mapping). -/
def normalizeSpec (s : String) : String :=
  String.mk ((trimSpecList s.data).map cppToupper)

/-- Spec-side description of the loader's handling of one line: `none` for
a blank line or a line with fewer than two fields (skipped), otherwise the
course with normalized field 0 as id, field 1 verbatim as title and the
normalized fields 2..N, in order, as prerequisites. -/
def specLineCourse (line : String) : Option Course :=
  if line = "" then none
  else
    let fields := splitCSV line
    if fields.length < 2 then none
    else
      some
        { courseNumber := toUpperTrim fields[0]!
          courseName := fields[1]!
          prerequisites := (fields.drop 2).map toUpperTrim }

/-- Spec-side test for a warned line: non-empty but fewer than two fields. -/
def specMalformedLine (line : String) : Bool :=
  line ≠ "" && (splitCSV line).length < 2

/-- Spec-side "comma-space-separated list". -/
def commaSpaceJoin : List String → String
  | [] => ""
  | [e] => e
  | e :: es => e ++ ", " ++ commaSpaceJoin es

/-- Spec-side detail rendering: normalize the query, look it up; absent
gives the not-found notice; present gives the "id, title" line and then
either "Prerequisites: None" or the comma-space-separated prerequisite
entries in source order. -/
def renderDetailSpec (bst : CourseTree) (query : String) : String :=
  match searchNode bst (toUpperTrim query) with
  | none => "Course not found.\n"
  | some c =>
    c.courseNumber ++ ", " ++ c.courseName ++ "\n" ++
      (if c.prerequisites = [] then ("Prerequisites: None\n")
       else ("Prerequisites: ") ++ commaSpaceJoin (c.prerequisites.map (prereqEntry bst)) ++ "\n")

/-- Proof helper: insertion into a list after every element whose course
number is less than or equal to the new course's (the in-order effect of
`addNode`, which routes equal keys to the right subtree). -/
def upperInsert (c : Course) : List Course → List Course
  | [] => [c]
  | x :: xs =>
    if x.courseNumber ≤ c.courseNumber then x :: upperInsert c xs
    else c :: x :: xs

example : splitCSV ("A,B,") = [("A"), ("B")] := by decide
example : splitCSV ("A,,B") = [("A"), (""), ("B")] := by decide
example : splitCSV (",X") = [(""), ("X")] := by decide
example : splitCSV (",") = [("")] := by decide
example : toUpperTrim ("  csci100 \t") = ("CSCI100") := by decide
example : toUpperTrim (" \t ") = ("") := by decide
example : toUpperTrim ("") = ("") := by decide

theorem searchNode_node (l : CourseTree) (n : Course) (r : CourseTree) (k : String) :
    searchNode (CourseTree.node l n r) k =
      (if n.courseNumber = k then some n
       else if k < n.courseNumber then searchNode l k else searchNode r k) := rfl

theorem searchNode_addNode (t : CourseTree) (c : Course) (k : String) :
    searchNode (addNode t c) k =
      (searchNode t k <|> (if c.courseNumber = k then some c else none)) := by
  induction t with
  | nil =>
    show searchNode (CourseTree.node CourseTree.nil c CourseTree.nil) k =
      (none <|> (if c.courseNumber = k then some c else none))
    rw [Option.none_orElse, searchNode_node]
    by_cases h : c.courseNumber = k
    · rw [if_pos h, if_pos h]
    · rw [if_neg h, if_neg h]
      split <;> rfl
  | node l n r ihl ihr =>
    by_cases hlt : c.courseNumber < n.courseNumber
    · have e1 : addNode (CourseTree.node l n r) c = CourseTree.node (addNode l c) n r := by
        rw [addNode, if_pos hlt]
      rw [e1, searchNode_node, searchNode_node]
      by_cases hk : n.courseNumber = k
      · rw [if_pos hk, if_pos hk, Option.some_orElse]
      · rw [if_neg hk, if_neg hk]
        by_cases hklt : k < n.courseNumber
        · rw [if_pos hklt, if_pos hklt, ihl]
        · have hnk : n.courseNumber < k := lt_of_le_of_ne (not_lt.mp hklt) hk
          have hck : c.courseNumber ≠ k := ne_of_lt (lt_trans hlt hnk)
          rw [if_neg hklt, if_neg hklt, if_neg hck, Option.orElse_none]
    · have e1 : addNode (CourseTree.node l n r) c = CourseTree.node l n (addNode r c) := by
        rw [addNode, if_neg hlt]
      rw [e1, searchNode_node, searchNode_node]
      by_cases hk : n.courseNumber = k
      · rw [if_pos hk, if_pos hk, Option.some_orElse]
      · rw [if_neg hk, if_neg hk]
        by_cases hklt : k < n.courseNumber
        · have hnc : n.courseNumber ≤ c.courseNumber := not_lt.mp hlt
          have hck : c.courseNumber ≠ k := ne_of_gt (lt_of_lt_of_le hklt hnc)
          rw [if_pos hklt, if_pos hklt, if_neg hck, Option.orElse_none]
        · rw [if_neg hklt, if_neg hklt, ihr]

theorem searchNode_foldl (cs : List Course) : ∀ (t : CourseTree) (k : String),
    searchNode (cs.foldl addNode t) k =
      (searchNode t k <|> cs.find? (fun c => c.courseNumber == k)) := by
  induction cs with
  | nil =>
    intro t k
    simp
  | cons c cs ih =>
    intro t k
    rw [List.foldl_cons, ih, searchNode_addNode]
    by_cases h : c.courseNumber = k
    · simp [List.find?_cons, h]
      cases searchNode t k <;> simp
    · simp [List.find?_cons, h]

theorem searchNode_insertAll (cs : List Course) (k : String) :
    searchNode (insertAll cs) k = cs.find? (fun c => c.courseNumber == k) := by
  rw [insertAll, searchNode_foldl]
  show (none <|> cs.find? (fun c => c.courseNumber == k)) = _
  rw [Option.none_orElse]

/-- C1: for every sequence of insertions into an empty catalog, lookup of a
key returns exactly the first-inserted course with that course number (so
when a course is inserted whose id already exists, lookup keeps returning
the earlier one, never a later duplicate). -/
theorem lookup_first_insertion_wins (cs : List Course) (k : String) :
    searchNode (insertAll cs) k = cs.find? (fun c => c.courseNumber == k) :=
  searchNode_insertAll cs k

/-- Helper order on courses: comparison of the course numbers. -/
def idLe (a b : Course) : Prop := a.courseNumber ≤ b.courseNumber

theorem mem_upperInsert (c x : Course) (l : List Course) :
    x ∈ upperInsert c l ↔ x = c ∨ x ∈ l := by
  induction l with
  | nil => simp [upperInsert]
  | cons a l ih =>
    by_cases h : a.courseNumber ≤ c.courseNumber
    · simp only [upperInsert, if_pos h, List.mem_cons, ih]
      tauto
    · simp only [upperInsert, if_neg h, List.mem_cons]

theorem perm_upperInsert (c : Course) (l : List Course) :
    List.Perm (upperInsert c l) (c :: l) := by
  induction l with
  | nil => simp [upperInsert]
  | cons a l ih =>
    by_cases h : a.courseNumber ≤ c.courseNumber
    · rw [upperInsert, if_pos h]
      exact (ih.cons a).trans (List.Perm.swap c a l)
    · rw [upperInsert, if_neg h]

theorem pairwise_upperInsert (c : Course) (l : List Course)
    (hl : l.Pairwise idLe) : (upperInsert c l).Pairwise idLe := by
  induction l with
  | nil => simp [upperInsert, List.Pairwise]
  | cons a l ih =>
    rw [List.pairwise_cons] at hl
    by_cases h : a.courseNumber ≤ c.courseNumber
    · rw [upperInsert, if_pos h]
      rw [List.pairwise_cons]
      refine ⟨?_, ih hl.2⟩
      intro y hy
      rcases (mem_upperInsert c y l).mp hy with hy | hy
      · rw [hy]
        exact h
      · exact hl.1 y hy
    · rw [upperInsert, if_neg h]
      have hca : idLe c a := le_of_lt (not_le.mp h)
      rw [List.pairwise_cons]
      refine ⟨?_, List.pairwise_cons.mpr hl⟩
      intro y hy
      rcases List.mem_cons.mp hy with hy | hy
      · rw [hy]
        exact hca
      · exact le_trans hca (hl.1 y hy)

theorem upperInsert_append_ge (c : Course) (A B : List Course)
    (hA : ∀ a ∈ A, a.courseNumber ≤ c.courseNumber) :
    upperInsert c (A ++ B) = A ++ upperInsert c B := by
  induction A with
  | nil => rfl
  | cons a A ih =>
    have ha : a.courseNumber ≤ c.courseNumber := hA a (List.mem_cons_self a A)
    rw [List.cons_append, upperInsert, if_pos ha, List.cons_append,
      ih (fun x hx => hA x (List.mem_cons_of_mem a hx))]

theorem upperInsert_append_lt (c n : Course) (A B : List Course)
    (hn : c.courseNumber < n.courseNumber) :
    upperInsert c (A ++ n :: B) = upperInsert c A ++ n :: B := by
  induction A with
  | nil =>
    have e : upperInsert c (n :: B) = c :: n :: B := by
      rw [upperInsert, if_neg (not_le.mpr hn)]
    rw [List.nil_append, e]
    rfl
  | cons a A ih =>
    by_cases h : a.courseNumber ≤ c.courseNumber
    · rw [List.cons_append, upperInsert, if_pos h, upperInsert, if_pos h, ih,
        List.cons_append]
    · rw [List.cons_append, upperInsert, if_neg h, upperInsert, if_neg h,
        List.cons_append, List.cons_append]

theorem inOrderList_addNode (t : CourseTree) (c : Course)
    (ht : (inOrderList t).Pairwise idLe) :
    inOrderList (addNode t c) = upperInsert c (inOrderList t) := by
  induction t with
  | nil => rfl
  | node l n r ihl ihr =>
    have hparts := List.pairwise_append.mp ht
    have hnIR := List.pairwise_cons.mp hparts.2.1
    by_cases hlt : c.courseNumber < n.courseNumber
    · have e1 : addNode (CourseTree.node l n r) c = CourseTree.node (addNode l c) n r := by
        rw [addNode, if_pos hlt]
      rw [e1]
      show inOrderList (addNode l c) ++ n :: inOrderList r =
        upperInsert c (inOrderList l ++ n :: inOrderList r)
      rw [ihl hparts.1, upperInsert_append_lt c n _ _ hlt]
    · have hn : n.courseNumber ≤ c.courseNumber := not_lt.mp hlt
      have e1 : addNode (CourseTree.node l n r) c = CourseTree.node l n (addNode r c) := by
        rw [addNode, if_neg hlt]
      rw [e1]
      show inOrderList l ++ n :: inOrderList (addNode r c) =
        upperInsert c (inOrderList l ++ n :: inOrderList r)
      rw [ihr hnIR.2]
      have hA : ∀ a ∈ inOrderList l, a.courseNumber ≤ c.courseNumber := by
        intro a ha
        exact le_trans (hparts.2.2 a ha n (List.mem_cons_self n _)) hn
      rw [upperInsert_append_ge c _ _ hA]
      have e2 : upperInsert c (n :: inOrderList r) = n :: upperInsert c (inOrderList r) := by
        rw [upperInsert, if_pos hn]
      rw [e2]

theorem filter_upperInsert (c : Course) (k : String) (l : List Course)
    (hl : l.Pairwise idLe) :
    (upperInsert c l).filter (fun x => x.courseNumber == k) =
      (if c.courseNumber = k
       then l.filter (fun x => x.courseNumber == k) ++ [c]
       else l.filter (fun x => x.courseNumber == k)) := by
  induction l with
  | nil =>
    show [c].filter (fun x => x.courseNumber == k) = _
    by_cases h : c.courseNumber = k
    · rw [if_pos h]
      simp [List.filter_cons, h]
    · rw [if_neg h]
      simp [List.filter_cons, h]
  | cons a l ih =>
    have hl2 := List.pairwise_cons.mp hl
    by_cases h : a.courseNumber ≤ c.courseNumber
    · have e1 : upperInsert c (a :: l) = a :: upperInsert c l := by
        rw [upperInsert, if_pos h]
      rw [e1, List.filter_cons, List.filter_cons, ih hl2.2]
      by_cases hck : c.courseNumber = k
      · rw [if_pos hck, if_pos hck]
        cases hb : (a.courseNumber == k) <;> simp [hb]
      · rw [if_neg hck, if_neg hck]
    · have e1 : upperInsert c (a :: l) = c :: a :: l := by
        rw [upperInsert, if_neg h]
      rw [e1, List.filter_cons]
      by_cases hck : c.courseNumber = k
      · have hnil : (a :: l).filter (fun x => x.courseNumber == k) = [] := by
          rw [List.filter_eq_nil_iff]
          intro x hx
          have hax : a.courseNumber ≤ x.courseNumber := by
            rcases List.mem_cons.mp hx with h1 | h1
            · rw [h1]
            · exact hl2.1 x h1
          have hcx : c.courseNumber < x.courseNumber := lt_of_lt_of_le (not_le.mp h) hax
          rw [← hck]
          simp only [beq_iff_eq]
          exact (ne_of_gt hcx)
        rw [if_pos hck, if_pos (beq_iff_eq.mpr hck), hnil]
        rfl
      · rw [if_neg hck, if_neg (by simp [hck])]

theorem inOrder_foldl (cs : List Course) : ∀ (t : CourseTree),
    (inOrderList t).Pairwise idLe →
    (inOrderList (cs.foldl addNode t)).Pairwise idLe ∧
    List.Perm (inOrderList (cs.foldl addNode t)) (inOrderList t ++ cs) ∧
    ∀ k, (inOrderList (cs.foldl addNode t)).filter (fun c => c.courseNumber == k) =
      (inOrderList t).filter (fun c => c.courseNumber == k) ++
        cs.filter (fun c => c.courseNumber == k) := by
  induction cs with
  | nil =>
    intro t ht
    refine ⟨ht, by simp, ?_⟩
    intro k
    simp
  | cons c cs ih =>
    intro t ht
    rw [List.foldl_cons]
    have haddp : (inOrderList (addNode t c)).Pairwise idLe := by
      rw [inOrderList_addNode t c ht]
      exact pairwise_upperInsert c _ ht
    obtain ⟨h1, h2, h3⟩ := ih (addNode t c) haddp
    refine ⟨h1, ?_, ?_⟩
    · refine h2.trans ?_
      have hp : List.Perm (inOrderList (addNode t c)) (c :: inOrderList t) := by
        rw [inOrderList_addNode t c ht]
        exact perm_upperInsert c _
      refine (hp.append_right cs).trans ?_
      exact (List.perm_middle).symm
    · intro k
      rw [h3 k, inOrderList_addNode t c ht, filter_upperInsert c k _ ht, List.filter_cons]
      by_cases hck : c.courseNumber = k
      · rw [if_pos hck, if_pos (beq_iff_eq.mpr hck)]
        simp
      · rw [if_neg hck, if_neg (by simp [hck])]

/-- C2 counterexample: inserting two courses with the same course number
makes `printAll`'s in-order id sequence repeat an id, so it is not strictly
ascending. -/
theorem enumeration_not_strictly_ascending :
    ¬ ((inOrderList (insertAll
        [Course.mk ("CSCI100") ("Intro A") [],
         Course.mk ("CSCI100") ("Intro B") []])).map
      Course.courseNumber).Pairwise (fun a b => a < b) := by
  intro h
  have e : (inOrderList (insertAll
      [Course.mk ("CSCI100") ("Intro A") [],
       Course.mk ("CSCI100") ("Intro B") []])).map Course.courseNumber =
      [("CSCI100"), ("CSCI100")] := by decide
  rw [e] at h
  exact lt_irrefl _ ((List.pairwise_cons.mp h).1 _ (List.mem_cons_self _ _))

/-- C2 amended: the id sequence produced by the in-order traversal is
non-decreasing under byte-wise comparison, and it is strictly ascending
whenever the inserted courses have pairwise distinct ids. -/
theorem enumeration_ids_ascending (cs : List Course) :
    ((inOrderList (insertAll cs)).map Course.courseNumber).Pairwise (fun a b => a ≤ b) ∧
    ((cs.map Course.courseNumber).Nodup →
      ((inOrderList (insertAll cs)).map Course.courseNumber).Pairwise (fun a b => a < b)) := by
  obtain ⟨h1, h2, _⟩ := inOrder_foldl cs CourseTree.nil (by simp [inOrderList])
  have hle : ((inOrderList (insertAll cs)).map Course.courseNumber).Pairwise (fun a b => a ≤ b) :=
    (List.pairwise_map).mpr h1
  refine ⟨hle, ?_⟩
  intro hnodup
  have hperm : List.Perm ((inOrderList (insertAll cs)).map Course.courseNumber)
      (cs.map Course.courseNumber) := by
    have := h2.map Course.courseNumber
    simpa using this
  have hnd : ((inOrderList (insertAll cs)).map Course.courseNumber).Nodup :=
    (hperm.nodup_iff).mpr hnodup
  have hboth := hle.and hnd
  exact hboth.imp (fun hab => lt_of_le_of_ne hab.1 hab.2)

/-- C2 amended, witness: on distinct ids the enumeration is strictly
ascending. -/
theorem enumeration_ids_ascending_witness :
    ((inOrderList (insertAll
        [Course.mk ("MATH201") ("Discrete Mathematics") [],
         Course.mk ("CSCI100") ("Intro") []])).map
      Course.courseNumber).Pairwise (fun a b => a < b) :=
  (enumeration_ids_ascending
    [Course.mk ("MATH201") ("Discrete Mathematics") [],
     Course.mk ("CSCI100") ("Intro") []]).2 (by decide)

/-- C9: enumeration of a catalog built by any insertion sequence yields
exactly that multiset of courses (a permutation: none dropped, none
repeated), in non-decreasing id order, and the subsequence of courses
carrying any fixed id equals the insertion subsequence with that id
(earlier-inserted before later-inserted). -/
theorem enumeration_exact_stable (cs : List Course) :
    List.Perm (inOrderList (insertAll cs)) cs ∧
    ((inOrderList (insertAll cs)).map Course.courseNumber).Pairwise (fun a b => a ≤ b) ∧
    ∀ k, (inOrderList (insertAll cs)).filter (fun c => c.courseNumber == k) =
      cs.filter (fun c => c.courseNumber == k) := by
  obtain ⟨h1, h2, h3⟩ := inOrder_foldl cs CourseTree.nil (by simp [inOrderList])
  refine ⟨by simpa using h2, (List.pairwise_map).mpr h1, ?_⟩
  intro k
  simpa using h3 k

/-- C3 counterexample: with two inserted courses sharing an id but with
different titles, the second one is yielded by enumeration, yet lookup of
its id returns the first-inserted record, whose title differs. -/
theorem lookup_enumeration_title_mismatch :
    (Course.mk ("CSCI100") ("Second Title") []) ∈ inOrderList (insertAll
      [Course.mk ("CSCI100") ("First Title") [],
       Course.mk ("CSCI100") ("Second Title") []]) ∧
    searchNode (insertAll
      [Course.mk ("CSCI100") ("First Title") [],
       Course.mk ("CSCI100") ("Second Title") []]) ("CSCI100") =
      some (Course.mk ("CSCI100") ("First Title") []) ∧
    ("First Title" : String) ≠ ("Second Title") := by
  refine ⟨by decide, by decide, by decide⟩

/-- C3 amended: every course X yielded by enumeration has a successful
lookup of its id returning a record with the same id; the title also
agrees whenever the inserted ids are pairwise distinct (with duplicate
ids, lookup returns the first-inserted record's title). -/
theorem lookup_agrees_with_enumeration (cs : List Course) (X : Course)
    (hX : X ∈ inOrderList (insertAll cs)) :
    ∃ Y, searchNode (insertAll cs) X.courseNumber = some Y ∧
      Y.courseNumber = X.courseNumber ∧
      ((cs.map Course.courseNumber).Nodup → Y.courseName = X.courseName) := by
  obtain ⟨_, h2, _⟩ := inOrder_foldl cs CourseTree.nil (by simp [inOrderList])
  have hperm : List.Perm (inOrderList (insertAll cs)) cs := by
    simpa using h2
  have hmem : X ∈ cs := (hperm.mem_iff).mp hX
  have hs := searchNode_insertAll cs X.courseNumber
  cases hfind : cs.find? (fun c => c.courseNumber == X.courseNumber) with
  | none =>
    exfalso
    have hnone := List.find?_eq_none.mp hfind X hmem
    simp at hnone
  | some Y =>
    have hYp := List.find?_some hfind
    have hYid : Y.courseNumber = X.courseNumber := by
      simpa using hYp
    refine ⟨Y, by rw [hs, hfind], hYid, ?_⟩
    intro hnodup
    have hYmem : Y ∈ cs := List.mem_of_find?_eq_some hfind
    have hXY : Y = X := List.inj_on_of_nodup_map hnodup hYmem hmem hYid
    rw [hXY]

/-- C3 amended, witness at a one-course catalog. -/
theorem lookup_agrees_with_enumeration_witness :
    ∃ Y, searchNode (insertAll [Course.mk ("CSCI100") ("Intro") []]) ("CSCI100") = some Y ∧
      Y.courseNumber = ("CSCI100") ∧
      (([("CSCI100")] : List String).Nodup → Y.courseName = ("Intro")) :=
  lookup_agrees_with_enumeration [Course.mk ("CSCI100") ("Intro") []]
    (Course.mk ("CSCI100") ("Intro") []) (by decide)

theorem prereqLoop_cons (bst : CourseTree) (p : String) (ps : List String) (b : Bool) :
    prereqLoop bst (p :: ps) b =
      (if b then (", ") else ("")) ++ prereqEntry bst p ++ prereqLoop bst ps true := rfl

theorem prereqLoop_join (bst : CourseTree) : ∀ ps : List String,
    prereqLoop bst ps false = commaSpaceJoin (ps.map (prereqEntry bst)) ∧
    prereqLoop bst ps true =
      (if ps = [] then ("") else (", " ++ commaSpaceJoin (ps.map (prereqEntry bst)))) := by
  intro ps
  induction ps with
  | nil => exact ⟨rfl, by simp [prereqLoop]⟩
  | cons p ps ih =>
    have hcons : ∀ b : Bool, prereqLoop bst (p :: ps) b =
        (if b then (", ") else ("")) ++ prereqEntry bst p ++ prereqLoop bst ps true :=
      fun b => prereqLoop_cons bst p ps b
    have hjoin : commaSpaceJoin ((p :: ps).map (prereqEntry bst)) =
        prereqEntry bst p ++ prereqLoop bst ps true := by
      cases ps with
      | nil =>
        show commaSpaceJoin [prereqEntry bst p] = prereqEntry bst p ++ prereqLoop bst [] true
        rw [commaSpaceJoin]
        show prereqEntry bst p = prereqEntry bst p ++ ""
        rw [String.append_empty]
      | cons q qs =>
        have e3 : commaSpaceJoin
            (prereqEntry bst p :: prereqEntry bst q :: (qs.map (prereqEntry bst))) =
            prereqEntry bst p ++ ", " ++
              commaSpaceJoin (prereqEntry bst q :: qs.map (prereqEntry bst)) := by
          rw [commaSpaceJoin]
          exact fun h => List.cons_ne_nil _ _ h
        show commaSpaceJoin
            (prereqEntry bst p :: prereqEntry bst q :: (qs.map (prereqEntry bst))) =
          prereqEntry bst p ++ prereqLoop bst (q :: qs) true
        rw [e3, ih.2, if_neg (List.cons_ne_nil q qs), String.append_assoc]
        rfl
    constructor
    · rw [hcons false, hjoin, if_neg (Bool.false_ne_true), String.empty_append]
    · rw [hcons true, hjoin, if_pos rfl, if_neg (List.cons_ne_nil p ps), String.append_assoc]

/-- C5: the output of `printCourseInfo` after reading a query agrees, for
every catalog and query, with the specified detail rendering: normalize
and look up; absent ids give the not-found notice; present ids give the
"id, title" line and then "Prerequisites: None" for an empty prerequisite
list, and otherwise "Prerequisites: " with the comma-space-separated
entries in source order, each resolved prerequisite shown as "P.id:
P.title" and each dangling one as "P: None Required". -/
theorem detail_rendering_as_specified (bst : CourseTree) (query : String) :
    printCourseInfoOutput bst query = renderDetailSpec bst query := by
  cases hsearch : searchNode bst (toUpperTrim query) with
  | none =>
    simp only [printCourseInfoOutput, renderDetailSpec, hsearch]
  | some c =>
    simp only [printCourseInfoOutput, renderDetailSpec, hsearch]
    cases hps : c.prerequisites with
    | nil =>
      rw [List.isEmpty_nil, if_pos rfl, if_pos rfl]
    | cons p ps =>
      rw [List.isEmpty_cons, if_neg (Bool.false_ne_true),
        if_neg (List.cons_ne_nil p ps), (prereqLoop_join bst (p :: ps)).1]

theorem ffno_none_iff (l : List Char) :
    findFirstNotOf l = none ↔ ∀ c ∈ l, isTrimWs c = true := by
  induction l with
  | nil => simp [findFirstNotOf]
  | cons c rest ih =>
    by_cases hc : isTrimWs c
    · rw [findFirstNotOf, if_pos hc]
      cases hr : findFirstNotOf rest with
      | none =>
        simp only [hr, Option.map_none', true_iff]
        intro x hx
        rcases List.mem_cons.mp hx with h1 | h1
        · rw [h1]
          exact hc
        · exact (ih.mp hr) x h1
      | some j =>
        simp only [hr, Option.map_some']
        constructor
        · intro h
          exact absurd h (by simp)
        · intro h
          have : findFirstNotOf rest = none := ih.mpr (fun x hx => h x (List.mem_cons_of_mem c hx))
          rw [hr] at this
          exact absurd this (by simp)
    · rw [findFirstNotOf, if_neg hc]
      constructor
      · intro h
        exact absurd h (by simp)
      · intro h
        exact absurd (h c (List.mem_cons_self c rest)) (by simpa using hc)

theorem ffno_some (l : List Char) (i : Nat) (h : findFirstNotOf l = some i) :
    i ≤ l.length ∧ l.drop i = l.dropWhile isTrimWs ∧ l.drop i ≠ [] := by
  induction l generalizing i with
  | nil => exact absurd h (by simp [findFirstNotOf])
  | cons c rest ih =>
    by_cases hc : isTrimWs c
    · rw [findFirstNotOf, if_pos hc] at h
      cases hr : findFirstNotOf rest with
      | none =>
        rw [hr] at h
        exact absurd h (by simp)
      | some j =>
        rw [hr] at h
        simp only [Option.map_some', Option.some.injEq] at h
        obtain ⟨h1, h2, h3⟩ := ih j hr
        refine ⟨?_, ?_, ?_⟩
        · rw [← h]
          simpa using Nat.succ_le_succ h1
        · rw [← h, List.drop_succ_cons, List.dropWhile_cons_of_pos hc]
          exact h2
        · rw [← h, List.drop_succ_cons]
          exact h3
    · rw [findFirstNotOf, if_neg hc] at h
      have h0 : i = 0 := by
        simpa using h.symm
      subst h0
      refine ⟨Nat.zero_le _, ?_, by simp⟩
      rw [List.drop_zero, List.dropWhile_cons_of_neg hc]

theorem ffno_append (A B : List Char) (i : Nat) (h : findFirstNotOf A = some i) :
    findFirstNotOf (A ++ B) = some i := by
  induction A generalizing i with
  | nil => exact absurd h (by simp [findFirstNotOf])
  | cons c rest ih =>
    by_cases hc : isTrimWs c
    · rw [findFirstNotOf, if_pos hc] at h
      cases hr : findFirstNotOf rest with
      | none =>
        rw [hr] at h
        exact absurd h (by simp)
      | some j =>
        rw [hr] at h
        rw [List.cons_append, findFirstNotOf, if_pos hc, ih j hr]
        exact h
    · rw [findFirstNotOf, if_neg hc] at h
      rw [List.cons_append, findFirstNotOf, if_neg hc]
      exact h

theorem dropWhile_cons_head (l : List Char) (c : Char) (cs : List Char)
    (h : l.dropWhile isTrimWs = c :: cs) : isTrimWs c = false := by
  induction l with
  | nil => exact absurd h (by simp)
  | cons x t ih =>
    by_cases hx : isTrimWs x
    · rw [List.dropWhile_cons_of_pos hx] at h
      exact ih h
    · rw [List.dropWhile_cons_of_neg hx] at h
      rw [← (List.cons.injEq x t c cs).mp h |>.1]
      simpa using hx

theorem trimWsList_eq_trimSpecList (l : List Char) : trimWsList l = trimSpecList l := by
  cases hf : findFirstNotOf l with
  | none =>
    have hall : ∀ c ∈ l, isTrimWs c = true := (ffno_none_iff l).mp hf
    have hM : l.dropWhile isTrimWs = [] := List.dropWhile_eq_nil_iff.mpr hall
    have hrev : findFirstNotOf l.reverse = none := by
      rw [ffno_none_iff]
      intro c hc
      exact hall c (List.mem_reverse.mp hc)
    have hflno : findLastNotOf l = none := by
      rw [findLastNotOf, hrev]
      rfl
    rw [trimSpecList, hM]
    show trimWsList l = ([] : List Char)
    rw [trimWsList, hf, hflno]
  | some s0 =>
    obtain ⟨hs0le, hdrop, hne⟩ := ffno_some l s0 hf
    have hMne : l.dropWhile isTrimWs ≠ [] := by
      intro h0
      exact hne (by rw [hdrop, h0])
    obtain ⟨m0, M2, hM0⟩ : ∃ c cs, l.dropWhile isTrimWs = c :: cs := by
      cases hMM : l.dropWhile isTrimWs with
      | nil => exact absurd hMM hMne
      | cons a b => exact ⟨a, b, rfl⟩
    have hm0 : isTrimWs m0 = false := dropWhile_cons_head l m0 M2 hM0
    have hmem : m0 ∈ (l.dropWhile isTrimWs).reverse := by
      rw [hM0]
      simp
    obtain ⟨j, hj⟩ : ∃ j, findFirstNotOf (l.dropWhile isTrimWs).reverse = some j := by
      cases hjj : findFirstNotOf (l.dropWhile isTrimWs).reverse with
      | none =>
        exfalso
        have := (ffno_none_iff _).mp hjj m0 hmem
        rw [hm0] at this
        exact Bool.false_ne_true this
      | some j => exact ⟨j, rfl⟩
    have hlrev : l.reverse = (l.dropWhile isTrimWs).reverse ++ (l.takeWhile isTrimWs).reverse := by
      conv_lhs => rw [← List.takeWhile_append_dropWhile isTrimWs l]
      rw [List.reverse_append]
    have hjl : findFirstNotOf l.reverse = some j := by
      rw [hlrev]
      exact ffno_append _ _ j hj
    have hflno : findLastNotOf l = some (l.length - 1 - j) := by
      rw [findLastNotOf, hjl]
      rfl
    obtain ⟨hjle, hjdrop, hjne⟩ := ffno_some (l.dropWhile isTrimWs).reverse j hj
    rw [List.length_reverse] at hjle
    have hjlt : j < (l.dropWhile isTrimWs).length := by
      rcases Nat.lt_or_ge j (l.dropWhile isTrimWs).length with h | h
      · exact h
      · exact absurd (List.drop_eq_nil_of_le (by simpa using h)) hjne
    have hMlen : (l.dropWhile isTrimWs).length = l.length - s0 := by
      rw [← hdrop]
      exact List.length_drop s0 l
    have hspec : trimSpecList l = (l.dropWhile isTrimWs).take ((l.dropWhile isTrimWs).length - j) := by
      rw [trimSpecList, ← hjdrop]
      have hrt : (l.dropWhile isTrimWs).reverse.drop j =
          ((l.dropWhile isTrimWs).take ((l.dropWhile isTrimWs).length - j)).reverse := by
        rw [List.reverse_take]
        congr 1
        omega
      rw [hrt, List.reverse_reverse]
    have hsrc : trimWsList l = (l.dropWhile isTrimWs).take ((l.length - 1 - j) - s0 + 1) := by
      rw [trimWsList, hf, hflno]
      show (l.drop s0).take ((l.length - 1 - j) - s0 + 1) = _
      rw [hdrop]
    rw [hsrc, hspec]
    congr 1
    omega

/-- C6: `toUpperTrim` equals the specified normalization: strip leading and
trailing whitespace characters from the set {space, tab, carriage return,
newline}, then map each byte in 0x61–0x7A to the corresponding byte in
0x41–0x5A leaving every other byte unchanged; in particular it returns the
empty string on whitespace-only input. -/
theorem toUpperTrim_eq_normalizeSpec (s : String) :
    toUpperTrim s = normalizeSpec s ∧
    ((∀ c ∈ s.data, isTrimWs c = true) → toUpperTrim s = ("")) := by
  have hmain : toUpperTrim s = normalizeSpec s := by
    rw [toUpperTrim, normalizeSpec, toUpperTrimList, trimWsList_eq_trimSpecList]
  refine ⟨hmain, ?_⟩
  intro hws
  rw [hmain, normalizeSpec, trimSpecList, List.dropWhile_eq_nil_iff.mpr hws]
  rfl

/-- C6 witness: a concrete run of the normalizer on a padded mixed-case id
and on whitespace-only input. -/
theorem toUpperTrim_eq_normalizeSpec_witness :
    toUpperTrim (" csci100 ") = normalizeSpec (" csci100 ") ∧
    toUpperTrim (" \t\r\n") = ("") :=
  ⟨(toUpperTrim_eq_normalizeSpec (" csci100 ")).1,
   (toUpperTrim_eq_normalizeSpec (" \t\r\n")).2 (by decide)⟩

theorem loadCoursesLines_cons_blank (rest : List String) (bst : CourseTree) :
    loadCoursesLines (("") :: rest) bst = loadCoursesLines rest bst := by
  rw [loadCoursesLines, if_pos rfl]

theorem loadCoursesLines_cons_short (line : String) (rest : List String) (bst : CourseTree)
    (h0 : line ≠ "") (h1 : (splitCSV line).length < 2) :
    loadCoursesLines (line :: rest) bst =
      ((loadCoursesLines rest bst).1,
       ("WARNING: Invalid course line (skipped): " ++ line) :: (loadCoursesLines rest bst).2) := by
  rw [loadCoursesLines, if_neg h0]
  show (if (splitCSV line).length < 2 then _ else _) = _
  rw [if_pos h1]

theorem loadCoursesLines_cons_course (line : String) (rest : List String) (bst : CourseTree)
    (h0 : line ≠ "") (h1 : ¬ (splitCSV line).length < 2) :
    loadCoursesLines (line :: rest) bst =
      loadCoursesLines rest (addNode bst
        (Course.mk (toUpperTrim (splitCSV line)[0]!) ((splitCSV line)[1]!)
          (((splitCSV line).drop 2).map toUpperTrim))) := by
  rw [loadCoursesLines, if_neg h0]
  show (if (splitCSV line).length < 2 then _ else _) = _
  rw [if_neg h1]

theorem loadCoursesLines_characterization (lines : List String) (bst : CourseTree) :
    loadCoursesLines lines bst =
      ((lines.filterMap specLineCourse).foldl addNode bst,
       (lines.filter (fun line => specMalformedLine line)).map
         (fun line => "WARNING: Invalid course line (skipped): " ++ line)) := by
  induction lines generalizing bst with
  | nil => rfl
  | cons line rest ih =>
    by_cases h0 : line = ""
    · subst h0
      rw [loadCoursesLines_cons_blank, ih]
      have e2 : specLineCourse ("") = none := rfl
      have e3 : specMalformedLine ("") = false := rfl
      simp [List.filterMap_cons, List.filter_cons, e2, e3]
    · by_cases h1 : (splitCSV line).length < 2
      · rw [loadCoursesLines_cons_short line rest bst h0 h1, ih]
        have e2 : specLineCourse line = none := by
          rw [specLineCourse, if_neg h0]
          show (if (splitCSV line).length < 2 then none else _) = none
          rw [if_pos h1]
        have e3 : specMalformedLine line = true := by
          rw [specMalformedLine]
          simp [h0, h1]
        simp [List.filterMap_cons, List.filter_cons, e2, e3]
      · rw [loadCoursesLines_cons_course line rest bst h0 h1, ih]
        have e2 : specLineCourse line =
            some (Course.mk (toUpperTrim (splitCSV line)[0]!) ((splitCSV line)[1]!)
              (((splitCSV line).drop 2).map toUpperTrim)) := by
          rw [specLineCourse, if_neg h0]
          show (if (splitCSV line).length < 2 then none else _) = _
          rw [if_neg h1]
        have e3 : specMalformedLine line = false := by
          rw [specMalformedLine]
          simp [h0, h1]
        simp [List.filterMap_cons, List.filter_cons, e2, e3]

/-- C4: for every input (list of lines) the loader skips blank lines
silently, warns about and skips each non-empty line splitting into fewer
than two comma-separated fields, and for every other line inserts the
course built from the normalized field 0, the verbatim field 1 and the
normalized fields 2..N in source order: the resulting tree is the fold of
exactly those courses and the warnings are exactly the malformed lines'
messages. -/
theorem loader_line_handling (lines : List String) (bst : CourseTree) :
    loadCoursesLines lines bst =
      ((lines.filterMap specLineCourse).foldl addNode bst,
       (lines.filter (fun line => specMalformedLine line)).map
         (fun line => "WARNING: Invalid course line (skipped): " ++ line)) :=
  loadCoursesLines_characterization lines bst

theorem toNat_charOfNat (n : Nat) (h1 : 0x41 ≤ n) (h2 : n ≤ 0x5A) :
    (Char.ofNat n).toNat = n := by
  have hv : n.isValidChar := Or.inl (by omega)
  rw [Char.ofNat, dif_pos hv]
  show (Char.ofNatAux n hv).toNat = n
  simp only [Char.ofNatAux, Char.toNat, UInt32.toNat]
  rfl

theorem cppToupper_toNat (c : Char) :
    (cppToupper c).toNat =
      (if 0x61 ≤ c.toNat ∧ c.toNat ≤ 0x7A then c.toNat - 0x20 else c.toNat) := by
  by_cases h : 0x61 ≤ c.toNat ∧ c.toNat ≤ 0x7A
  · rw [cppToupper, if_pos h, if_pos h]
    exact toNat_charOfNat _ (by omega) (by omega)
  · rw [cppToupper, if_neg h, if_neg h]

theorem cppToupper_eq_self (c : Char) (h : ¬ (0x61 ≤ c.toNat ∧ c.toNat ≤ 0x7A)) :
    cppToupper c = c := by
  rw [cppToupper, if_neg h]

theorem isTrimWs_false_of_toNat (x : Char)
    (h : x.toNat ≠ 32 ∧ x.toNat ≠ 9 ∧ x.toNat ≠ 13 ∧ x.toNat ≠ 10) :
    isTrimWs x = false := by
  have h1 : x ≠ ' ' := fun he => h.1 (by rw [he]; rfl)
  have h2 : x ≠ '\t' := fun he => h.2.1 (by rw [he]; rfl)
  have h3 : x ≠ '\r' := fun he => h.2.2.1 (by rw [he]; rfl)
  have h4 : x ≠ '\n' := fun he => h.2.2.2 (by rw [he]; rfl)
  simp [isTrimWs, h1, h2, h3, h4]

theorem cppToupper_isTrimWs (c : Char) : isTrimWs (cppToupper c) = isTrimWs c := by
  by_cases h : 0x61 ≤ c.toNat ∧ c.toNat ≤ 0x7A
  · have ht : (cppToupper c).toNat = c.toNat - 0x20 := by
      rw [cppToupper_toNat, if_pos h]
    have hlhs : isTrimWs (cppToupper c) = false := by
      refine isTrimWs_false_of_toNat _ ?_
      rw [ht]
      omega
    have hrhs : isTrimWs c = false := by
      refine isTrimWs_false_of_toNat _ ?_
      omega
    rw [hlhs, hrhs]
  · rw [cppToupper_eq_self c h]

theorem cppToupper_idem (c : Char) : cppToupper (cppToupper c) = cppToupper c := by
  by_cases h : 0x61 ≤ c.toNat ∧ c.toNat ≤ 0x7A
  · have ht : (cppToupper c).toNat = c.toNat - 0x20 := by
      rw [cppToupper_toNat, if_pos h]
    refine cppToupper_eq_self _ ?_
    rw [ht]
    omega
  · rw [cppToupper_eq_self c h, cppToupper_eq_self c h]

theorem trimSpecList_of_clean (X : List Char)
    (hh : ∀ c cs, X = c :: cs → isTrimWs c = false)
    (hl : ∀ c cs, X.reverse = c :: cs → isTrimWs c = false) :
    trimSpecList X = X := by
  have h1 : X.dropWhile isTrimWs = X := by
    cases hX : X with
    | nil => rfl
    | cons c cs =>
      rw [List.dropWhile_cons_of_neg (by simp [hh c cs hX])]
  have h2 : X.reverse.dropWhile isTrimWs = X.reverse := by
    cases hX : X.reverse with
    | nil => rfl
    | cons c cs =>
      rw [List.dropWhile_cons_of_neg (by simp [hl c cs hX])]
  rw [trimSpecList, h1, h2, List.reverse_reverse]

theorem trimSpecList_head (l : List Char) (c : Char) (cs : List Char)
    (h : trimSpecList l = c :: cs) : isTrimWs c = false := by
  have hpre : trimSpecList l <+: l.dropWhile isTrimWs := by
    rw [trimSpecList]
    rw [← List.reverse_reverse (l.dropWhile isTrimWs)]
    rw [List.reverse_prefix]
    rw [List.reverse_reverse]
    exact List.dropWhile_suffix isTrimWs
  obtain ⟨t, ht⟩ := hpre
  rw [h] at ht
  exact dropWhile_cons_head l c (cs ++ t) (by rw [← ht]; rfl)

theorem trimSpecList_last (l : List Char) (c : Char) (cs : List Char)
    (h : (trimSpecList l).reverse = c :: cs) : isTrimWs c = false := by
  rw [trimSpecList, List.reverse_reverse] at h
  exact dropWhile_cons_head (l.dropWhile isTrimWs).reverse c cs h

theorem toUpperTrimList_eq_spec (l : List Char) :
    toUpperTrimList l = (trimSpecList l).map cppToupper := by
  rw [toUpperTrimList, trimWsList_eq_trimSpecList]

theorem toUpperTrimList_idem (l : List Char) :
    toUpperTrimList (toUpperTrimList l) = toUpperTrimList l := by
  rw [toUpperTrimList_eq_spec l, toUpperTrimList_eq_spec]
  have hclean : trimSpecList ((trimSpecList l).map cppToupper) =
      (trimSpecList l).map cppToupper := by
    refine trimSpecList_of_clean _ ?_ ?_
    · intro c cs hX
      cases hT : trimSpecList l with
      | nil =>
        rw [hT] at hX
        exact absurd hX (by simp)
      | cons t ts =>
        rw [hT, List.map_cons] at hX
        have hc : c = cppToupper t := ((List.cons.injEq _ _ _ _).mp hX).1.symm
        rw [hc, cppToupper_isTrimWs]
        exact trimSpecList_head l t ts hT
    · intro c cs hX
      rw [← List.map_reverse] at hX
      cases hT : (trimSpecList l).reverse with
      | nil =>
        rw [hT] at hX
        exact absurd hX (by simp)
      | cons t ts =>
        rw [hT, List.map_cons] at hX
        have hc : c = cppToupper t := ((List.cons.injEq _ _ _ _).mp hX).1.symm
        rw [hc, cppToupper_isTrimWs]
        exact trimSpecList_last l t ts hT
  rw [hclean, List.map_map]
  have : cppToupper ∘ cppToupper = cppToupper := by
    funext c
    exact cppToupper_idem c
  rw [this]

theorem toUpperTrim_idem (s : String) : toUpperTrim (toUpperTrim s) = toUpperTrim s := by
  rw [toUpperTrim, toUpperTrim]
  show String.mk (toUpperTrimList (toUpperTrimList s.data)) = _
  rw [toUpperTrimList_idem]

/-- C8: when the input file cannot be opened (`none` source), `loadCourses`
reports the failure and returns with the catalog exactly unchanged. -/
theorem load_failure_leaves_catalog_unchanged (filename : String) (bst : CourseTree) :
    (loadCourses filename none bst).1 = bst ∧
    (loadCourses filename none bst).2 = [("ERROR: Could not open file: " ++ filename)] :=
  ⟨rfl, rfl⟩

theorem specLineCourse_id (line : String) (c : Course) (h : specLineCourse line = some c) :
    c.courseNumber = toUpperTrim ((splitCSV line)[0]!) := by
  by_cases h0 : line = ""
  · rw [specLineCourse, if_pos h0] at h
    exact absurd h (by simp)
  · by_cases h1 : (splitCSV line).length < 2
    · have e : specLineCourse line = none := by
        rw [specLineCourse, if_neg h0]
        show (if (splitCSV line).length < 2 then none else _) = none
        rw [if_pos h1]
      rw [e] at h
      exact absurd h (by simp)
    · have e : specLineCourse line =
          some (Course.mk (toUpperTrim (splitCSV line)[0]!) ((splitCSV line)[1]!)
            (((splitCSV line).drop 2).map toUpperTrim)) := by
        rw [specLineCourse, if_neg h0]
        show (if (splitCSV line).length < 2 then none else _) = _
        rw [if_neg h1]
      rw [e] at h
      have h2 := (Option.some.injEq _ _).mp h
      rw [← h2]

/-- C7 counterexample: the non-blank line ",Intro" has two fields, so the
loader inserts a course whose id is the normalization of the empty field 0,
i.e. the empty string — the stored id is not non-empty. -/
theorem loaded_id_can_be_empty :
    (inOrderList ((loadCoursesLines [(",Intro")] CourseTree.nil).1)).map
      Course.courseNumber = [("")] := by
  decide

/-- C7 amended: every id stored in a catalog populated by the loader is a
fixed point of normalization (uppercase, no surrounding whitespace); it
need not be non-empty (field 0 may be empty or whitespace-only). -/
theorem loaded_ids_normalized (lines : List String) (c : Course)
    (hc : c ∈ inOrderList ((loadCoursesLines lines CourseTree.nil).1)) :
    toUpperTrim c.courseNumber = c.courseNumber := by
  have hload := loadCoursesLines_characterization lines CourseTree.nil
  have htree : (loadCoursesLines lines CourseTree.nil).1 =
      (lines.filterMap specLineCourse).foldl addNode CourseTree.nil := by
    rw [hload]
  rw [htree] at hc
  obtain ⟨_, h2, _⟩ :=
    inOrder_foldl (lines.filterMap specLineCourse) CourseTree.nil (by simp [inOrderList])
  have hperm : List.Perm
      (inOrderList ((lines.filterMap specLineCourse).foldl addNode CourseTree.nil))
      (lines.filterMap specLineCourse) := by
    simpa using h2
  have hmem : c ∈ lines.filterMap specLineCourse := (hperm.mem_iff).mp hc
  obtain ⟨line, _, hparse⟩ := List.mem_filterMap.mp hmem
  rw [specLineCourse_id line c hparse, toUpperTrim_idem]

/-- C7 amended, witness: the id parsed from "csci100 ,Intro" is stored
normalized and is its own normalization. -/
theorem loaded_ids_normalized_witness : toUpperTrim ("CSCI100") = ("CSCI100") :=
  loaded_ids_normalized [("csci100 ,Intro")] (Course.mk ("CSCI100") ("Intro") [])
    (by decide)

theorem searchNode_eq_key (t : CourseTree) (k : String) (c : Course)
    (h : searchNode t k = some c) : c.courseNumber = k := by
  induction t with
  | nil => exact absurd h (by simp [searchNode])
  | node l n r ihl ihr =>
    rw [searchNode_node] at h
    by_cases hk : n.courseNumber = k
    · rw [if_pos hk] at h
      rw [← (Option.some.injEq _ _).mp h]
      exact hk
    · rw [if_neg hk] at h
      by_cases hkl : k < n.courseNumber
      · rw [if_pos hkl] at h
        exact ihl h
      · rw [if_neg hkl] at h
        exact ihr h

theorem searchNode_mem (t : CourseTree) (k : String) (c : Course)
    (h : searchNode t k = some c) : c ∈ inOrderList t := by
  induction t with
  | nil => exact absurd h (by simp [searchNode])
  | node l n r ihl ihr =>
    rw [searchNode_node] at h
    show c ∈ inOrderList l ++ n :: inOrderList r
    by_cases hk : n.courseNumber = k
    · rw [if_pos hk] at h
      rw [← (Option.some.injEq _ _).mp h]
      exact List.mem_append_right _ (List.mem_cons_self n _)
    · rw [if_neg hk] at h
      by_cases hkl : k < n.courseNumber
      · rw [if_pos hkl] at h
        exact List.mem_append_left _ (ihl h)
      · rw [if_neg hkl] at h
        exact List.mem_append_right _ (List.mem_cons_of_mem n (ihr h))

theorem cppToupper_not_lowercase (y : Char) :
    ¬ (0x61 ≤ (cppToupper y).toNat ∧ (cppToupper y).toNat ≤ 0x7A) := by
  rw [cppToupper_toNat]
  by_cases h : 0x61 ≤ y.toNat ∧ y.toNat ≤ 0x7A
  · rw [if_pos h]
    omega
  · rw [if_neg h]
    exact h

theorem toUpperTrimList_head_not_ws (l : List Char) (c : Char) (cs : List Char)
    (h : toUpperTrimList l = c :: cs) : isTrimWs c = false := by
  rw [toUpperTrimList_eq_spec] at h
  cases hT : trimSpecList l with
  | nil =>
    rw [hT] at h
    exact absurd h (by simp)
  | cons t ts =>
    rw [hT, List.map_cons] at h
    have hc : c = cppToupper t := ((List.cons.injEq _ _ _ _).mp h).1.symm
    rw [hc, cppToupper_isTrimWs]
    exact trimSpecList_head l t ts hT

theorem toUpperTrimList_last_not_ws (l : List Char) (c : Char) (cs : List Char)
    (h : (toUpperTrimList l).reverse = c :: cs) : isTrimWs c = false := by
  rw [toUpperTrimList_eq_spec, ← List.map_reverse] at h
  cases hT : (trimSpecList l).reverse with
  | nil =>
    rw [hT] at h
    exact absurd h (by simp)
  | cons t ts =>
    rw [hT, List.map_cons] at h
    have hc : c = cppToupper t := ((List.cons.injEq _ _ _ _).mp h).1.symm
    rw [hc, cppToupper_isTrimWs]
    exact trimSpecList_last l t ts hT

theorem toUpperTrimList_no_lowercase (l : List Char) (ch : Char)
    (hm : ch ∈ toUpperTrimList l) : ¬ (0x61 ≤ ch.toNat ∧ ch.toNat ≤ 0x7A) := by
  rw [toUpperTrimList] at hm
  obtain ⟨y, _, hy⟩ := List.mem_map.mp hm
  rw [← hy]
  exact cppToupper_not_lowercase y

/-- C10: lookup returns a course only when that course's stored id equals
the query byte-for-byte; and since no renormalization happens inside
lookup, on a catalog whose ids are all normalized any query containing a
lowercase letter, or with leading or trailing whitespace, returns an
absent result. -/
theorem lookup_exact_byte_match (t : CourseTree) (q : String) :
    (∀ c, searchNode t q = some c → c.courseNumber = q) ∧
    ((∀ c ∈ inOrderList t, toUpperTrim c.courseNumber = c.courseNumber) →
      ((∃ ch ∈ q.data, 0x61 ≤ ch.toNat ∧ ch.toNat ≤ 0x7A) ∨
       (∃ ch cs, q.data = ch :: cs ∧ isTrimWs ch = true) ∨
       (∃ ch cs, q.data = cs ++ [ch] ∧ isTrimWs ch = true)) →
      searchNode t q = none) := by
  refine ⟨fun c hc => searchNode_eq_key t q c hc, ?_⟩
  intro hnorm hbad
  cases hs : searchNode t q with
  | none => rfl
  | some c =>
    exfalso
    have hid := searchNode_eq_key t q c hs
    have hmem := searchNode_mem t q c hs
    have hfix : toUpperTrim q = q := by
      rw [← hid]
      exact hnorm c hmem
    have hdata : toUpperTrimList q.data = q.data := congrArg String.data hfix
    rcases hbad with ⟨ch, hch, hlow⟩ | ⟨ch, cs, hcons, hws⟩ | ⟨ch, cs, hcat, hws⟩
    · have hm2 : ch ∈ toUpperTrimList q.data := by
        rw [hdata]
        exact hch
      exact toUpperTrimList_no_lowercase q.data ch hm2 hlow
    · have hc2 : toUpperTrimList q.data = ch :: cs := by
        rw [hdata]
        exact hcons
      rw [toUpperTrimList_head_not_ws q.data ch cs hc2] at hws
      exact Bool.false_ne_true hws
    · have hrev : (toUpperTrimList q.data).reverse = ch :: cs.reverse := by
        rw [hdata, hcat]
        simp
      rw [toUpperTrimList_last_not_ws q.data ch cs.reverse hrev] at hws
      exact Bool.false_ne_true hws

/-- C10 witness: on a normalized one-course catalog, the lowercase query
"csci100" finds nothing. -/
theorem lookup_exact_byte_match_witness :
    searchNode (insertAll [Course.mk ("CSCI100") ("Intro") []]) ("csci100") = none :=
  (lookup_exact_byte_match (insertAll [Course.mk ("CSCI100") ("Intro") []])
    ("csci100")).2 (by decide) (Or.inl (by decide))
